import Mathlib

/-!
# RocksDict core: shallow embedding and verification

This file embeds the core logic of the RocksDict repository (a Python
binding of a persistent ordered key-value store) in Lean 4 and proves
properties of the embedded definitions.

Conventions of the embedding:

* A Rust `u8` byte is a `Nat` (well-formedness `< 256` is carried as a
  hypothesis where it matters); byte strings are `List Nat`.
* A Rust `String` is represented by its UTF-8 byte sequence together with
  a validity predicate (`isValidUtf8`), mirroring the fact that Rust's
  `String` is a `Vec<u8>` with a UTF-8 invariant.
* `num_bigint::BigInt` is `Int`; its `to_signed_bytes_be` /
  `from_signed_bytes_be` are modelled as minimal-width big-endian
  two's-complement conversion (`toSignedBytesBE` / `fromSignedBytesBE`).
* An `f64` is represented by its IEEE-754 bit pattern, a `Nat < 256^8`;
  `f64::to_be_bytes` / `from_be_bytes` are big-endian base-256 digit
  conversions of the bit pattern.
* Fallible Rust code (`PyResult`) becomes `Except String` / `PyRes`;
  a Rust panic (`unwrap` failure, out-of-bounds index) is the explicit
  `PyRes.crash` / `DecodeResult.crash` outcome.
-/

/-! ## Byte-string primitives -/

/-- Big-endian base-256 digits of `m`, exactly `k` bytes (most significant
first).  Models fixed-width big-endian byte output such as
`f64::to_be_bytes` on the bit pattern. -/
def natToBEBytes : Nat → Nat → List Nat
  | 0, _ => []
  | k + 1, m => natToBEBytes k (m / 256) ++ [m % 256]

/-- Big-endian interpretation of a byte string as an unsigned number. -/
def beBytesToNat (bs : List Nat) : Nat :=
  bs.foldl (fun a b => 256 * a + b) 0

/-- Number of binary digits of `n` (`0` for `0`), via a fuel-driven
structural recursion so that it evaluates by kernel reduction. -/
def nbitsAux : Nat → Nat → Nat
  | 0, _ => 0
  | fuel + 1, n => if n = 0 then 0 else nbitsAux fuel (n / 2) + 1

def nbits (n : Nat) : Nat := nbitsAux n n

/-- Byte length of the minimal-width two's-complement representation of
`n`: the smallest `k ≥ 1` with `-(2^(8k-1)) ≤ n < 2^(8k-1)`.  This is the
width produced by `num_bigint::BigInt::to_signed_bytes_be`. -/
def sbeLen (n : Int) : Nat :=
  (if 0 ≤ n then nbits n.toNat else nbits (-n - 1).toNat) / 8 + 1

/-- `BigInt::to_signed_bytes_be`: minimal-width big-endian
two's-complement bytes of `n`. -/
def toSignedBytesBE (n : Int) : List Nat :=
  natToBEBytes (sbeLen n) (n % ((256 : Int) ^ sbeLen n)).toNat

/-- `BigInt::from_signed_bytes_be`: big-endian two's-complement
interpretation of a byte string (the sign is the top bit of the first
byte; the empty string is `0`). -/
def fromSignedBytesBE (bs : List Nat) : Int :=
  if 128 ≤ bs.headD 0 then
    (beBytesToNat bs : Int) - (256 : Int) ^ bs.length
  else
    (beBytesToNat bs : Int)

/-- The byte-wise lexicographic strict order used by the storage engine's
default comparator (and by Rust's `Ord` on byte slices and `String`). -/
def lexLtB : List Nat → List Nat → Bool
  | [], [] => false
  | [], _ :: _ => true
  | _ :: _, [] => false
  | a :: as', b :: bs' => if a < b then true else if a = b then lexLtB as' bs' else false

/-! ## UTF-8 validity

Models the byte-level validation performed by `String::from_utf8`
(Rust `core::str` UTF-8 validation): ASCII, 2-, 3- and 4-byte sequences
with the exact continuation ranges that exclude overlong forms,
surrogates and code points above `0x10FFFF`. -/

/-- A UTF-8 continuation byte: `0x80 ≤ b ≤ 0xBF`. -/
def utf8Cont (b : Nat) : Bool := 128 ≤ b && b < 192

def isValidUtf8 : List Nat → Bool
  | [] => true
  | b :: rest =>
    if b < 128 then isValidUtf8 rest
    else if b < 194 then false
    else if b < 224 then
      match rest with
      | b1 :: rest' => utf8Cont b1 && isValidUtf8 rest'
      | [] => false
    else if b < 240 then
      match rest with
      | b1 :: b2 :: rest' =>
        (if b = 224 then 160 ≤ b1 && b1 < 192
         else if b = 237 then 128 ≤ b1 && b1 < 160
         else utf8Cont b1) && utf8Cont b2 && isValidUtf8 rest'
      | _ => false
    else if b < 245 then
      match rest with
      | b1 :: b2 :: b3 :: rest' =>
        (if b = 240 then 144 ≤ b1 && b1 < 192
         else if b = 244 then 128 ≤ b1 && b1 < 144
         else utf8Cont b1) && utf8Cont b2 && utf8Cont b3 && isValidUtf8 rest'
      | _ => false
    else false

/-! ## Arithmetic lemmas for the byte conversions -/

theorem natToBEBytes_length (k m : Nat) : (natToBEBytes k m).length = k := by
  induction k generalizing m with
  | zero => rfl
  | succ k ih => simp [natToBEBytes, ih]

theorem nbitsAux_lt (fuel n : Nat) (h : n ≤ fuel) : n < 2 ^ nbitsAux fuel n := by
  induction fuel generalizing n with
  | zero =>
    interval_cases n
    simp [nbitsAux]
  | succ fuel ih =>
    by_cases hn : n = 0
    · simp [nbitsAux, hn]
    · have hrec : n / 2 ≤ fuel := by omega
      have := ih (n / 2) hrec
      simp only [nbitsAux, hn, if_false]
      have h2 : 2 ^ (nbitsAux fuel (n / 2) + 1) = 2 * 2 ^ nbitsAux fuel (n / 2) := by
        rw [pow_succ]; ring
      omega

theorem nbits_lt (n : Nat) : n < 2 ^ nbits n := nbitsAux_lt n n le_rfl

theorem mod_mul256 (m t : Nat) (ht : 0 < t) :
    m % (256 * t) = 256 * (m / 256 % t) + m % 256 := by
  have e1 : 256 * (m / 256) + m % 256 = m := Nat.div_add_mod m 256
  have e2 : t * (m / 256 / t) + m / 256 % t = m / 256 := Nat.div_add_mod (m / 256) t
  have hlt : m / 256 % t < t := Nat.mod_lt _ ht
  have hr : m % 256 < 256 := Nat.mod_lt _ (by norm_num)
  have ha : 256 * t * (m / 256 / t) = 256 * (t * (m / 256 / t)) := by ring
  have h1 : m = 256 * t * (m / 256 / t) + (256 * (m / 256 % t) + m % 256) := by
    rw [ha]
    omega
  have h2 : 256 * (m / 256 % t) + m % 256 < 256 * t := by omega
  calc m % (256 * t)
      = (256 * t * (m / 256 / t) + (256 * (m / 256 % t) + m % 256)) % (256 * t) := by
        rw [← h1]
    _ = (256 * (m / 256 % t) + m % 256) % (256 * t) := by
        rw [Nat.mul_add_mod]
    _ = 256 * (m / 256 % t) + m % 256 := Nat.mod_eq_of_lt h2

theorem beBytesToNat_append_singleton (bs : List Nat) (b : Nat) :
    beBytesToNat (bs ++ [b]) = 256 * beBytesToNat bs + b := by
  simp [beBytesToNat, List.foldl_append]

theorem beBytesToNat_natToBEBytes (k m : Nat) :
    beBytesToNat (natToBEBytes k m) = m % 256 ^ k := by
  induction k generalizing m with
  | zero =>
    simp [natToBEBytes, beBytesToNat]
    omega
  | succ k ih =>
    rw [natToBEBytes, beBytesToNat_append_singleton, ih,
      show (256 : Nat) ^ (k + 1) = 256 * 256 ^ k by rw [pow_succ]; ring]
    exact (mod_mul256 m (256 ^ k) (Nat.pos_pow_of_pos _ (by norm_num))).symm

theorem headD_append_of_ne_nil {bs : List Nat} (cs : List Nat) (d : Nat)
    (h : bs ≠ []) : (bs ++ cs).headD d = bs.headD d := by
  cases bs with
  | nil => exact absurd rfl h
  | cons a as' => rfl

theorem natToBEBytes_headD (k m : Nat) :
    (natToBEBytes (k + 1) m).headD 0 = m / 256 ^ k % 256 := by
  induction k generalizing m with
  | zero => simp [natToBEBytes]
  | succ k ih =>
    have hne : natToBEBytes (k + 1) (m / 256) ≠ [] := by
      intro h
      have := natToBEBytes_length (k + 1) (m / 256)
      rw [h] at this
      simp at this
    rw [natToBEBytes, headD_append_of_ne_nil _ _ hne, ih,
      Nat.div_div_eq_div_mul]
    congr 2
    rw [pow_succ]
    ring

/-- The two-sided width bound that `sbeLen` guarantees:
`-(128 * 256^(sbeLen n - 1)) ≤ n < 128 * 256^(sbeLen n - 1)`. -/
theorem sbeLen_bound (n : Int) :
    -(128 * (256 : Int) ^ (sbeLen n - 1)) ≤ n ∧
      n < 128 * (256 : Int) ^ (sbeLen n - 1) := by
  have hpow : ∀ b : Nat, ((2 : Int) ^ (8 * (b / 8) + 7)) = 128 * 256 ^ (b / 8) := by
    intro b
    rw [show (128 : Int) = 2 ^ 7 by norm_num, show (256 : Int) = 2 ^ 8 by norm_num,
      ← pow_mul, ← pow_add]
    congr 1
    omega
  by_cases hn : 0 ≤ n
  · have hL : sbeLen n = nbits n.toNat / 8 + 1 := by simp [sbeLen, hn]
    set b := nbits n.toNat with hb
    have hlt : n.toNat < 2 ^ b := nbits_lt n.toNat
    have hble : b ≤ 8 * (b / 8) + 7 := by omega
    have h2 : n.toNat < 2 ^ (8 * (b / 8) + 7) :=
      lt_of_lt_of_le hlt (Nat.pow_le_pow_right (by norm_num) hble)
    have h3 : (n.toNat : Int) < (2 : Int) ^ (8 * (b / 8) + 7) := by
      exact_mod_cast h2
    rw [Int.toNat_of_nonneg hn] at h3
    rw [hL]
    simp only [Nat.add_sub_cancel]
    constructor
    · have : (0 : Int) < 128 * 256 ^ (b / 8) := by positivity
      omega
    · rw [← hpow b]; exact h3
  · push_neg at hn
    have hL : sbeLen n = nbits (-n - 1).toNat / 8 + 1 := by
      simp [sbeLen, not_le.mpr hn]
    set b := nbits (-n - 1).toNat with hb
    have hlt : (-n - 1).toNat < 2 ^ b := nbits_lt (-n - 1).toNat
    have hble : b ≤ 8 * (b / 8) + 7 := by omega
    have h2 : (-n - 1).toNat < 2 ^ (8 * (b / 8) + 7) :=
      lt_of_lt_of_le hlt (Nat.pow_le_pow_right (by norm_num) hble)
    have h3 : ((-n - 1).toNat : Int) < (2 : Int) ^ (8 * (b / 8) + 7) := by
      exact_mod_cast h2
    have hnn : (0 : Int) ≤ -n - 1 := by omega
    rw [Int.toNat_of_nonneg hnn] at h3
    rw [hL]
    simp only [Nat.add_sub_cancel]
    rw [hpow b] at h3
    constructor
    · omega
    · have : (0 : Int) < 128 * 256 ^ (b / 8) := by positivity
      omega

/-- Round trip of the `BigInt` signed-byte conversions:
`from_signed_bytes_be(to_signed_bytes_be(n)) == n`. -/
theorem fromSigned_toSigned (n : Int) :
    fromSignedBytesBE (toSignedBytesBE n) = n := by
  obtain ⟨hlo, hhi⟩ := sbeLen_bound n
  set L := sbeLen n with hLdef
  have hL1 : 1 ≤ L := by
    rw [hLdef]; unfold sbeLen; omega
  set P : Nat := 256 ^ (L - 1) with hP
  have hPpos : 0 < P := Nat.pos_pow_of_pos _ (by norm_num)
  have hM : (256 : Nat) ^ L = 256 * P := by
    rw [hP, ← pow_succ', Nat.sub_add_cancel hL1]
  have hPI : ((256 : Int) ^ (L - 1)) = ((P : Nat) : Int) := by rw [hP]; push_cast; ring
  have hMP : (256 : Int) ^ L = 256 * ((P : Nat) : Int) := by
    have h0 := congrArg (fun x : Nat => (x : Int)) hM
    push_cast at h0
    simpa using h0
  rw [hPI] at hlo hhi
  have hPnn : (0 : Int) ≤ ((P : Nat) : Int) := by positivity
  have hMpos : (0 : Int) < (256 : Int) ^ L := by positivity
  set m := (n % ((256 : Int) ^ L)).toNat with hm
  have hmod_nonneg : 0 ≤ n % ((256 : Int) ^ L) := Int.emod_nonneg n (by positivity)
  have hmod_lt : n % ((256 : Int) ^ L) < (256 : Int) ^ L := Int.emod_lt_of_pos n hMpos
  have hmI : (m : Int) = n % ((256 : Int) ^ L) := Int.toNat_of_nonneg hmod_nonneg
  have hmlt : m < 256 ^ L := by
    have h1 : (m : Int) < (256 : Int) ^ L := by rw [hmI]; exact hmod_lt
    rw [hMP] at h1
    rw [hM]
    exact_mod_cast h1
  -- unfold the encoder output
  have henc : toSignedBytesBE n = natToBEBytes L m := by
    rw [toSignedBytesBE, ← hLdef, ← hm]
  have hlen : (toSignedBytesBE n).length = L := by rw [henc, natToBEBytes_length]
  have hval : beBytesToNat (toSignedBytesBE n) = m := by
    rw [henc, beBytesToNat_natToBEBytes, Nat.mod_eq_of_lt hmlt]
  have hmltP : m < 256 * P := by rw [← hM]; exact hmlt
  have hhead : (toSignedBytesBE n).headD 0 = m / P := by
    rw [henc, show L = (L - 1) + 1 by omega, natToBEBytes_headD, ← hP]
    have : m / P < 256 := by
      rw [Nat.div_lt_iff_lt_mul hPpos]
      omega
    exact Nat.mod_eq_of_lt this
  unfold fromSignedBytesBE
  rw [hval, hlen, hhead]
  by_cases hn : 0 ≤ n
  · -- nonnegative: the payload equals `n` and the sign bit is clear
    have hnlt : n < (256 : Int) ^ L := by rw [hMP]; omega
    have hmn : (m : Int) = n := by rw [hmI, Int.emod_eq_of_lt hn hnlt]
    have hmP : m < 128 * P := by
      have h1 : (m : Int) < 128 * ((P : Nat) : Int) := by rw [hmn]; exact hhi
      exact_mod_cast h1
    have hdiv : m / P < 128 := by rw [Nat.div_lt_iff_lt_mul hPpos]; omega
    rw [if_neg (by omega)]
    exact hmn
  · -- negative: the payload is `n + 256^L` and the sign bit is set
    push_neg at hn
    have h2 : (0 : Int) ≤ n + (256 : Int) ^ L := by rw [hMP]; omega
    have h3 : n + (256 : Int) ^ L < (256 : Int) ^ L := by omega
    have hmn : (m : Int) = n + (256 : Int) ^ L := by
      have h1 := @Int.add_mul_emod_self_left n ((256 : Int) ^ L) 1
      rw [mul_one] at h1
      rw [hmI, ← h1, Int.emod_eq_of_lt h2 h3]
    have hmP : 128 * P ≤ m := by
      have h4 : (128 : Int) * ((P : Nat) : Int) ≤ (m : Int) := by
        rw [hmn, hMP]
        omega
      exact_mod_cast h4
    have hdiv : 128 ≤ m / P := by rw [Nat.le_div_iff_mul_le hPpos]; omega
    rw [if_pos (by omega), hmn]
    ring

/-! ## Python objects and the typed codec (`encoder.rs`)

`PyObj` models the Python objects that cross the pyo3 boundary.  A Python
`str` is carried as its UTF-8 byte sequence (well-formedness is the
`isValidUtf8` predicate); a Python `float` as its IEEE-754 bit pattern;
a Python `int` as an unbounded `Int` (pyo3 extracts it to `BigInt`). -/

inductive PyObj where
  | pyBool (b : Bool)
  | pyBytes (bs : List Nat)
  | pyStr (s : List Nat)
  | pyInt (n : Int)
  | pyFloat (bits : Nat)
  | pyNone
  | pyOther (id : Nat)
  deriving DecidableEq

/-- `ValueTypes` from `encoder.rs`: the closed tagged union the codec
dispatches on.  `any` keeps the original Python object, as the Rust
`Any(&PyAny)` variant does. -/
inductive ValueTypes where
  | bytes (b : List Nat)
  | str (s : List Nat)
  | int (n : Int)
  | float (bits : Nat)
  | bool (b : Bool)
  | any (obj : PyObj)
  deriving DecidableEq

/-- `encoding_byte` from `encoder.rs`: the tag byte per variant. -/
def encoding_byte : ValueTypes → Nat
  | .bytes _ => 1
  | .str _ => 2
  | .int _ => 3
  | .float _ => 4
  | .bool _ => 5
  | .any _ => 6

/-- `<PyBool as PyTryFrom>::try_from`: succeeds exactly on Python `bool`. -/
def tryFromBool : PyObj → Option Bool
  | .pyBool b => some b
  | _ => none

/-- `<PyBytes as PyTryFrom>::try_from`. -/
def tryFromBytes : PyObj → Option (List Nat)
  | .pyBytes bs => some bs
  | _ => none

/-- `<PyString as PyTryFrom>::try_from`. -/
def tryFromString : PyObj → Option (List Nat)
  | .pyStr s => some s
  | _ => none

/-- `<PyInt as PyTryFrom>::try_from`: Python's `bool` is a subclass of
`int`, so the downcast also succeeds on booleans (`True` extracts to `1`,
`False` to `0`). -/
def tryFromInt : PyObj → Option Int
  | .pyInt n => some n
  | .pyBool b => some (if b then 1 else 0)
  | _ => none

/-- `<PyFloat as PyTryFrom>::try_from`. -/
def tryFromFloat : PyObj → Option Nat
  | .pyFloat bits => some bits
  | _ => none

/-- `py_to_value_types` from `encoder.rs`: type dispatch in source order —
bool, bytes, string, int, float, then the `Any` fallback. -/
def py_to_value_types (value : PyObj) : ValueTypes :=
  match tryFromBool value with
  | some b => .bool b
  | none =>
    match tryFromBytes value with
    | some bs => .bytes bs
    | none =>
      match tryFromString value with
      | some s => .str s
      | none =>
        match tryFromInt value with
        | some n => .int n
        | none =>
          match tryFromFloat value with
          | some bits => .float bits
          | none => .any value

/-- `concat_type_encoding` from `encoder.rs`. -/
def concat_type_encoding (encoding : Nat) (payload : List Nat) : List Nat :=
  encoding :: payload

/-- The payload bytes of each `ValueTypes` variant, as computed by the
`match` bodies of `encode_key` / `encode_value` (`dumps` is the external
pickle serializer, passed in as a function). -/
def valuePayload (dumps : PyObj → List Nat) : ValueTypes → List Nat
  | .bytes b => b
  | .str s => s
  | .int n => toSignedBytesBE n
  | .float bits => natToBEBytes 8 bits
  | .bool b => if b then [1] else [0]
  | .any obj => dumps obj

/-- `encode_key` from `encoder.rs`.  In raw mode only bytes are accepted;
otherwise the value is dispatched and tagged, and the `Any` fallback is
rejected (only scalar types may be keys). -/
def encode_key (key : PyObj) (raw_mode : Bool) : Except String (List Nat) :=
  if raw_mode then
    match tryFromBytes key with
    | some bs => .ok bs
    | none => .error "raw mode only support bytes"
  else
    let bytes := py_to_value_types key
    let type_encoding := encoding_byte bytes
    match bytes with
    | .any _ => .error "Only support string, int, float, bool, and bytes as keys"
    | v => .ok (concat_type_encoding type_encoding (valuePayload (fun _ => []) v))

/-- `encode_value` from `encoder.rs`.  Unlike `encode_key`, the `Any`
fallback is serialized with `dumps` (pickle) instead of being rejected. -/
def encode_value (value : PyObj) (dumps : PyObj → List Nat) (raw_mode : Bool) :
    Except String (List Nat) :=
  if raw_mode then
    match tryFromBytes value with
    | some bs => .ok bs
    | none => .error "raw mode only support bytes"
  else
    let bytes := py_to_value_types value
    .ok (concat_type_encoding (encoding_byte bytes) (valuePayload dumps bytes))

instance {ε α : Type} [DecidableEq ε] [DecidableEq α] : DecidableEq (Except ε α) :=
  fun a b =>
    match a, b with
    | .ok x, .ok y =>
      if h : x = y then .isTrue (h ▸ rfl)
      else .isFalse (fun hc => h (Except.ok.inj hc))
    | .error e, .error f =>
      if h : e = f then .isTrue (h ▸ rfl)
      else .isFalse (fun hc => h (Except.error.inj hc))
    | .ok _, .error _ => .isFalse (fun hc => Except.noConfusion hc)
    | .error _, .ok _ => .isFalse (fun hc => Except.noConfusion hc)

/-- Outcome of a fallible call through the binding: a Python-level result,
a Python exception, or a Rust panic (`crash`). -/
inductive PyRes (α : Type) where
  | ok (a : α)
  | err (msg : String)
  | crash
  deriving DecidableEq

/-- `decode_value` from `encoder.rs`.  `loads` is the external pickle
deserializer.  The models of the two Rust panic sites are explicit:
`bytes[1..].try_into().unwrap()` for the float tag panics unless the
payload is exactly 8 bytes, and `bytes[1]` for the bool tag panics when
the payload is empty. -/
def decode_value (bytes : List Nat) (loads : List Nat → PyObj) (raw_mode : Bool) :
    PyRes PyObj :=
  if raw_mode then .ok (.pyBytes bytes) else
  match bytes with
  | [] => .err "Unknown value type"
  | byte :: rest =>
    match byte with
    | 1 => .ok (.pyBytes rest)
    | 2 =>
      if isValidUtf8 rest then .ok (.pyStr rest)
      else .err "utf-8 decoding error"
    | 3 => .ok (.pyInt (fromSignedBytesBE rest))
    | 4 =>
      if rest.length = 8 then .ok (.pyFloat (beBytesToNat rest))
      else .crash
    | 5 =>
      match rest with
      | [] => .crash
      | b :: _ => .ok (.pyBool (b != 0))
    | 6 => .ok (loads rest)
    | _ => .err "Unknown value type"

/-- The Python objects of the five scalar codec types (bytes, text,
arbitrary-precision integer, float, boolean), with the representation
invariants of the embedding: a `str` carries valid UTF-8, a `float`
carries a 64-bit pattern. -/
def representableWF : PyObj → Prop
  | .pyBool _ => True
  | .pyBytes _ => True
  | .pyStr s => isValidUtf8 s = true
  | .pyInt _ => True
  | .pyFloat bits => bits < 256 ^ 8
  | _ => False

theorem lexLtB_cons_same (c : Nat) (x y : List Nat) :
    lexLtB (c :: x) (c :: y) = lexLtB x y := by
  simp [lexLtB]

theorem lexLtB_cons_ne (a b : Nat) (x y : List Nat) (h : a ≠ b) :
    lexLtB (a :: x) (b :: y) = decide (a < b) := by
  rcases Nat.lt_trichotomy a b with hab | hab | hab
  · simp [lexLtB, hab]
  · exact absurd hab h
  · simp [lexLtB, h, Nat.lt_asymm hab]

/-- Same-type natural strict order of key values, per the codec's
ordering contract: bytes and text compare lexicographically (for UTF-8
text the byte order coincides with code-point order), and
`False < True`.  `false` for any other pair. -/
def naturalLtB : PyObj → PyObj → Bool
  | .pyBytes x, .pyBytes y => lexLtB x y
  | .pyStr x, .pyStr y => lexLtB x y
  | .pyBool x, .pyBool y => !x && y
  | _, _ => false

/-- The pairs of key values covered by the (amended) order-preservation
property: two byte strings, two text strings, or two booleans. -/
def orderableSameKindB : PyObj → PyObj → Bool
  | .pyBytes _, .pyBytes _ => true
  | .pyStr _, .pyStr _ => true
  | .pyBool _, .pyBool _ => true
  | _, _ => false

/-- C1: For every representable value `v` (bytes, text,
arbitrary-precision integer, float, boolean) encoded in non-raw mode,
decoding the encoded bytes yields a value equal to `v`:
`decode_value(encode_value(v)) == v`, for any external pickle
serializer/deserializer pair (the opaque tag is not involved). -/
theorem decode_encode_roundtrip (v : PyObj) (dumps : PyObj → List Nat)
    (loads : List Nat → PyObj) (h : representableWF v) :
    ∃ e, encode_value v dumps false = .ok e ∧ decode_value e loads false = .ok v := by
  cases v with
  | pyBool b => cases b <;> exact ⟨_, rfl, rfl⟩
  | pyBytes bs => exact ⟨_, rfl, rfl⟩
  | pyStr s =>
    refine ⟨2 :: s, rfl, ?_⟩
    have hs : isValidUtf8 s = true := h
    simp [decode_value, hs]
  | pyInt n =>
    refine ⟨3 :: toSignedBytesBE n, rfl, ?_⟩
    simp [decode_value, fromSigned_toSigned]
  | pyFloat bits =>
    refine ⟨4 :: natToBEBytes 8 bits, rfl, ?_⟩
    have hb : bits < 256 ^ 8 := h
    have hb2 : bits % 256 ^ 8 = bits := Nat.mod_eq_of_lt hb
    simp only [decode_value, natToBEBytes_length, beBytesToNat_natToBEBytes,
      if_true, hb2, if_false, Bool.false_eq_true]
  | pyNone => exact h.elim
  | pyOther id => exact h.elim

/-- C1 witness: the round trip at the concrete value `-129`. -/
theorem decode_encode_roundtrip_witness :
    ∃ e, encode_value (.pyInt (-129)) (fun _ => []) false = .ok e ∧
      decode_value e (fun _ => .pyNone) false = .ok (.pyInt (-129)) :=
  decode_encode_roundtrip (.pyInt (-129)) (fun _ => []) (fun _ => .pyNone) trivial

/-- C2 counterexample: integer keys are NOT encoded order-preservingly.
`127 < 128`, yet the encoded key of `128` is lexicographically smaller
than the encoded key of `127` (the two's-complement payload of `128`
needs a leading `0x00` sign byte). -/
theorem encode_key_int_order_counterexample :
    (127 : Int) < 128 ∧
      encode_key (.pyInt 127) false = .ok [3, 127] ∧
      encode_key (.pyInt 128) false = .ok [3, 0, 128] ∧
      lexLtB [3, 127] [3, 0, 128] = false ∧
      lexLtB [3, 0, 128] [3, 127] = true := by
  refine ⟨by norm_num, by decide, by decide, by decide, by decide⟩

/-- C2 amended: for two key values of the same declared type among
bytes, text and boolean, the natural order of the values coincides with
the byte-wise lexicographic order of their encoded keys (for integers
and floats this fails, see the counterexample). -/
theorem encode_key_order_amended (a b : PyObj) (ka kb : List Nat)
    (hk : orderableSameKindB a b = true)
    (ha : encode_key a false = .ok ka) (hb : encode_key b false = .ok kb) :
    naturalLtB a b = lexLtB ka kb := by
  cases a <;> cases b <;> simp [orderableSameKindB] at hk
  case pyBytes.pyBytes x y =>
    simp [encode_key, py_to_value_types, tryFromBool, tryFromBytes,
      concat_type_encoding, valuePayload, encoding_byte] at ha hb
    subst ha; subst hb
    rw [naturalLtB, lexLtB_cons_same]
  case pyStr.pyStr x y =>
    simp [encode_key, py_to_value_types, tryFromBool, tryFromBytes, tryFromString,
      concat_type_encoding, valuePayload, encoding_byte] at ha hb
    subst ha; subst hb
    rw [naturalLtB, lexLtB_cons_same]
  case pyBool.pyBool x y =>
    cases x <;> cases y <;>
        simp only [show ∀ c : Bool,
            encode_key (.pyBool c) false = .ok [5, if c then 1 else 0] from
              fun c => by cases c <;> rfl,
          Except.ok.injEq] at ha hb <;>
      subst ha <;> subst hb <;> decide

/-- C2 amended witness: two text keys in a strict-prefix relation. -/
theorem encode_key_order_amended_witness :
    naturalLtB (.pyStr [97]) (.pyStr [97, 98]) = lexLtB [2, 97] [2, 97, 98] ∧
      lexLtB [2, 97] [2, 97, 98] = true :=
  ⟨encode_key_order_amended (.pyStr [97]) (.pyStr [97, 98]) [2, 97] [2, 97, 98]
      (by decide) (by decide) (by decide),
    by decide⟩

/-- C9: two values carrying different type tags never have equal
encodings, and the lexicographic order of the two encodings is exactly
the order of their tag bytes. -/
theorem encode_tag_discrimination (a b : PyObj) (dumps : PyObj → List Nat)
    (ea eb : List Nat)
    (ha : encode_value a dumps false = .ok ea)
    (hb : encode_value b dumps false = .ok eb)
    (hne : encoding_byte (py_to_value_types a) ≠ encoding_byte (py_to_value_types b)) :
    ea ≠ eb ∧
      (lexLtB ea eb = true ↔
        encoding_byte (py_to_value_types a) < encoding_byte (py_to_value_types b)) := by
  have hea : ea = encoding_byte (py_to_value_types a) :: valuePayload dumps (py_to_value_types a) := by
    simp [encode_value, concat_type_encoding] at ha
    exact ha.symm
  have heb : eb = encoding_byte (py_to_value_types b) :: valuePayload dumps (py_to_value_types b) := by
    simp [encode_value, concat_type_encoding] at hb
    exact hb.symm
  subst hea; subst heb
  constructor
  · intro hcontra
    exact hne (List.head_eq_of_cons_eq hcontra)
  · rw [lexLtB_cons_ne _ _ _ _ hne]
    simp

/-- C9 witness: a float value against a boolean value. -/
theorem encode_tag_discrimination_witness :
    [4, 0, 0, 0, 0, 0, 0, 0, 0] ≠ ([5, 1] : List Nat) ∧
      (lexLtB [4, 0, 0, 0, 0, 0, 0, 0, 0] [5, 1] = true ↔
        encoding_byte (py_to_value_types (.pyFloat 0)) <
          encoding_byte (py_to_value_types (.pyBool true))) :=
  encode_tag_discrimination (.pyFloat 0) (.pyBool true) (fun _ => [])
    [4, 0, 0, 0, 0, 0, 0, 0, 0] [5, 1] (by rfl) (by rfl) (by decide)

/-- C10: a Python boolean is classified by the boolean tag (5), never
the integer tag (3), because the bool check precedes the int check in
`py_to_value_types` — even though the int downcast would also succeed on
a boolean (`bool` is a subclass of `int`).  Hence `True`/`1` and
`False`/`0` encode to distinct keys. -/
theorem bool_tag_precedence (b : Bool) :
    py_to_value_types (.pyBool b) = .bool b ∧
      encoding_byte (py_to_value_types (.pyBool b)) = 5 ∧
      tryFromInt (.pyBool b) = some (if b then 1 else 0) ∧
      encode_key (.pyBool true) false = .ok [5, 1] ∧
      encode_key (.pyInt 1) false = .ok [3, 1] ∧
      encode_key (.pyBool false) false = .ok [5, 0] ∧
      encode_key (.pyInt 0) false = .ok [3, 0] ∧
      [5, 1] ≠ ([3, 1] : List Nat) ∧ [5, 0] ≠ ([3, 0] : List Nat) := by
  cases b <;> exact (by decide)

/-- C6 counterexample: a float payload whose length is not 8 makes
`decode_value` panic (`try_into().unwrap()`), not return a Truncated
error; an empty boolean payload panics on the `bytes[1]` index; and an
oversized boolean payload is silently accepted instead of erroring. -/
theorem decode_truncated_crash_counterexample :
    decode_value [4] (fun _ => .pyNone) false = .crash ∧
      decode_value [4, 1, 2] (fun _ => .pyNone) false = .crash ∧
      decode_value [5] (fun _ => .pyNone) false = .crash ∧
      decode_value [5, 1, 1] (fun _ => .pyNone) false = .ok (.pyBool true) := by
  refine ⟨by decide, by decide, by decide, by decide⟩

/-- C6 amended: decoding empty input or an unknown leading byte returns
an "Unknown value type" error, and a non-UTF-8 payload under the text tag
returns a "utf-8 decoding error" — but a float payload of length ≠ 8
panics (Rust `unwrap`), an empty boolean payload panics (index out of
bounds), and any non-empty boolean payload is accepted using only its
first byte. -/
theorem decode_error_amended (bs : List Nat) (loads : List Nat → PyObj) :
    (bs = [] → decode_value bs loads false = .err "Unknown value type") ∧
      (∀ b rest, bs = b :: rest → b = 0 ∨ 7 ≤ b →
        decode_value bs loads false = .err "Unknown value type") ∧
      (∀ rest, bs = 2 :: rest → isValidUtf8 rest = false →
        decode_value bs loads false = .err "utf-8 decoding error") ∧
      (∀ rest, bs = 4 :: rest → rest.length ≠ 8 →
        decode_value bs loads false = .crash) ∧
      (bs = [5] → decode_value bs loads false = .crash) ∧
      (∀ b rest, bs = 5 :: b :: rest →
        decode_value bs loads false = .ok (.pyBool (b != 0))) := by
  refine ⟨?_, ?_, ?_, ?_, ?_, ?_⟩
  · rintro rfl; rfl
  · rintro b rest rfl hb
    rcases hb with rfl | hb
    · rfl
    · match b, hb with
      | (n + 7), _ => rfl
  · rintro rest rfl hinv
    simp [decode_value, hinv]
  · rintro rest rfl hlen
    simp [decode_value, hlen]
  · rintro rfl; rfl
  · rintro b rest rfl; rfl

/-- C6 amended witness: unknown tag byte `7` errors; float tag with a
1-byte payload panics. -/
theorem decode_error_amended_witness :
    decode_value [7, 9] (fun _ => .pyNone) false = .err "Unknown value type" ∧
      decode_value [4, 1] (fun _ => .pyNone) false = .crash :=
  ⟨(decode_error_amended [7, 9] (fun _ => .pyNone)).2.1 7 [9] rfl (by omega),
    (decode_error_amended [4, 1] (fun _ => .pyNone)).2.2.2.1 [1] rfl (by decide)⟩

/-! ## The Ownership Holder (`db_reference.rs`)

`DbReferenceHolder` wraps `Option<Arc<RefCell<DB>>>`.  The model is a
world with one shared `Arc`: `owners` records, per holder, whether its
`inner` is still `Some` (so the Arc's strong count is the number of
`true` entries), and `releases` counts how many times
`cancel_all_background_work` + resource drop have run.  `close` is
`inner.take().and_then(Arc::into_inner)`: it clears the holder's slot
and runs teardown exactly when it held the last strong reference.
`Drop for DbReferenceHolder` calls `close`, so a drop is a `close` step. -/

structure HolderWorld where
  owners : List Bool
  releases : Nat
  deriving DecidableEq

inductive HolderOp where
  | close (i : Nat)
  | clone (i : Nat)
  deriving DecidableEq

/-- The Arc's strong count: the number of holders whose `inner` is `Some`. -/
def liveCount (w : HolderWorld) : Nat := w.owners.count true

/-- `DbReferenceHolder::get`: `Some` iff this holder has not been closed. -/
def holderGet (w : HolderWorld) (i : Nat) : Bool := w.owners.getD i false

def holderStep (w : HolderWorld) : HolderOp → HolderWorld
  | .close i =>
    if holderGet w i then
      { owners := w.owners.set i false,
        releases := w.releases + (if liveCount w = 1 then 1 else 0) }
    else w
  | .clone i =>
    { owners := w.owners ++ [holderGet w i], releases := w.releases }

def holderRun (w : HolderWorld) (ops : List HolderOp) : HolderWorld :=
  ops.foldl holderStep w

/-- A freshly opened holder: one owner, nothing released. -/
def holderInit : HolderWorld := { owners := [true], releases := 0 }

theorem getD_set_false (l : List Bool) (i : Nat) :
    (l.set i false).getD i false = false := by
  induction l generalizing i with
  | nil => rfl
  | cons a t ih =>
    cases i with
    | zero => rfl
    | succ j =>
      show (a :: t.set j false).getD (j + 1) false = false
      rw [List.getD_cons_succ]
      exact ih j

theorem getD_true_count_pos (l : List Bool) (i : Nat)
    (h : l.getD i false = true) : 0 < l.count true := by
  induction l generalizing i with
  | nil => exact Bool.noConfusion h
  | cons a t ih =>
    cases i with
    | zero =>
      rw [List.getD_cons_zero] at h
      rw [List.count_cons, h]
      simp
    | succ j =>
      rw [List.getD_cons_succ] at h
      have := ih j h
      rw [List.count_cons]
      omega

theorem count_set_false (l : List Bool) (i : Nat)
    (h : l.getD i false = true) :
    (l.set i false).count true + 1 = l.count true := by
  induction l generalizing i with
  | nil => exact Bool.noConfusion h
  | cons a t ih =>
    cases i with
    | zero =>
      rw [List.getD_cons_zero] at h
      subst h
      show (false :: t).count true + 1 = (true :: t).count true
      rw [List.count_cons, List.count_cons]
      simp
    | succ j =>
      rw [List.getD_cons_succ] at h
      have := ih j h
      show (a :: t.set j false).count true + 1 = (a :: t).count true
      rw [List.count_cons, List.count_cons]
      omega

/-- The lifecycle invariant: either some owner is still live and nothing
has been released, or no owner is live and the release ran exactly once. -/
def holderInv (w : HolderWorld) : Prop :=
  (0 < liveCount w ∧ w.releases = 0) ∨ (liveCount w = 0 ∧ w.releases = 1)

theorem liveCount_mk (os : List Bool) (r : Nat) :
    liveCount { owners := os, releases := r } = os.count true := rfl

theorem holderStep_inv (w : HolderWorld) (op : HolderOp) (h : holderInv w) :
    holderInv (holderStep w op) := by
  have hlc : liveCount w = w.owners.count true := rfl
  cases op with
  | clone i =>
    show holderInv { owners := w.owners ++ [holderGet w i], releases := w.releases }
    have hcnt : (w.owners ++ [holderGet w i]).count true =
        w.owners.count true + (if holderGet w i = true then 1 else 0) := by
      rw [List.count_append, List.count_cons, List.count_nil]
      cases hq : holderGet w i <;> simp [hq]
    rcases h with ⟨hpos, h0⟩ | ⟨hz, h1⟩
    · left
      refine ⟨?_, h0⟩
      rw [liveCount_mk, hcnt]
      rw [hlc] at hpos
      omega
    · right
      refine ⟨?_, h1⟩
      rw [hlc] at hz
      have hfalse : holderGet w i = false := by
        cases hq : holderGet w i with
        | false => rfl
        | true => exact absurd (getD_true_count_pos w.owners i hq) (by omega)
      rw [liveCount_mk, hcnt, hfalse]
      simp
      omega
  | close i =>
    by_cases hi : holderGet w i = true
    · have hpos := getD_true_count_pos w.owners i hi
      have hdec := count_set_false w.owners i hi
      show holderInv (if holderGet w i then
        { owners := w.owners.set i false,
          releases := w.releases + (if liveCount w = 1 then 1 else 0) } else w)
      rw [if_pos hi]
      rcases h with ⟨hlv, h0⟩ | ⟨hz, _⟩
      · rw [hlc] at hlv
        by_cases h1 : liveCount w = 1
        · right
          constructor
          · show (w.owners.set i false).count true = 0
            rw [hlc] at h1
            omega
          · show w.releases + (if liveCount w = 1 then 1 else 0) = 1
            rw [if_pos h1, h0]
        · left
          constructor
          · show 0 < (w.owners.set i false).count true
            rw [hlc] at h1
            omega
          · show w.releases + (if liveCount w = 1 then 1 else 0) = 0
            rw [if_neg h1, h0]
      · rw [hlc] at hz
        exfalso
        omega
    · show holderInv (if holderGet w i then
        { owners := w.owners.set i false,
          releases := w.releases + (if liveCount w = 1 then 1 else 0) } else w)
      rw [if_neg hi]
      exact h

/-- `close()` on an already-closed holder (its `inner` is `None`, so
`take()` yields nothing) is a no-op. -/
theorem holderStep_close_noop (w : HolderWorld) (i : Nat)
    (h : holderGet w i = false) : holderStep w (.close i) = w := by
  simp [holderStep, h]

theorem holderRun_inv (ops : List HolderOp) (w : HolderWorld) (h : holderInv w) :
    holderInv (holderRun w ops) := by
  induction ops generalizing w with
  | nil => exact h
  | cons op rest ih => exact ih (holderStep w op) (holderStep_inv w op h)

/-- C3: `close()` is idempotent (a second `close` on the same holder is a
no-op), and along every sequence of close/drop/clone steps from a fresh
holder the underlying resource is released at most once, and has been
released exactly once precisely when no live owner remains — i.e. at the
moment the last referencing handle closed or dropped. -/
theorem holder_close_idempotent_release_once :
    (∀ (w : HolderWorld) (i : Nat),
      holderStep (holderStep w (.close i)) (.close i) = holderStep w (.close i)) ∧
      (∀ ops : List HolderOp,
        (holderRun holderInit ops).releases ≤ 1 ∧
          ((holderRun holderInit ops).releases = 1 ↔
            liveCount (holderRun holderInit ops) = 0)) := by
  constructor
  · intro w i
    by_cases hi : holderGet w i = true
    · have h2 : holderGet (holderStep w (.close i)) i = false := by
        simp only [holderStep, hi, if_true]
        exact getD_set_false w.owners i
      exact holderStep_close_noop _ i h2
    · have hfalse : holderGet w i = false := by
        cases hq : holderGet w i with
        | false => rfl
        | true => exact absurd hq hi
      rw [holderStep_close_noop w i hfalse, holderStep_close_noop w i hfalse]
  · intro ops
    have hinv : holderInv (holderRun holderInit ops) :=
      holderRun_inv ops holderInit (by left; constructor <;> simp [holderInit, liveCount])
    rcases hinv with ⟨hpos, h0⟩ | ⟨hz, h1⟩
    · constructor
      · omega
      · constructor
        · intro hr; omega
        · intro hl; omega
    · constructor
      · omega
      · constructor
        · intro _; exact hz
        · intro _; exact h1

/-! ## The cursor (`iter.rs`)

`RdictIter` wraps a native RocksDB iterator over one column family.  The
model carries the column family's contents as `entries`, the engine's
key-ordered sequence of entries (an entry is an encoded key, an encoded
value, and the wide columns reported for it), and the native position as
`pos : Option Nat` — `none` is the invalid state (freshly created and
never seeked, seeked past the range, or errored).  `valid`, the seeks,
`next`/`prev` and the three reads mirror the methods of `RdictIter`. -/

structure DbEntry where
  key : List Nat
  val : List Nat
  cols : List (List Nat × List Nat)
  deriving DecidableEq

structure RdictIterSt where
  entries : List DbEntry
  pos : Option Nat
  raw : Bool
  deriving DecidableEq

def RdictIterSt.valid (st : RdictIterSt) : Bool :=
  match st.pos with
  | some i => decide (i < st.entries.length)
  | none => false

def RdictIterSt.seekToFirst (st : RdictIterSt) : RdictIterSt :=
  { st with pos := if st.entries.isEmpty then none else some 0 }

def RdictIterSt.seekToLast (st : RdictIterSt) : RdictIterSt :=
  { st with pos := if st.entries.isEmpty then none else some (st.entries.length - 1) }

/-- Index of the first entry whose key is not lexicographically below
the target (the engine's lower bound under the byte-wise comparator). -/
def lowerIdx (entries : List DbEntry) (ek : List Nat) : Option Nat :=
  match entries with
  | [] => none
  | e :: rest => if !lexLtB e.key ek then some 0 else (lowerIdx rest ek).map (· + 1)

/-- Index of the first entry whose key is strictly above the target. -/
def upperIdx (entries : List DbEntry) (ek : List Nat) : Option Nat :=
  match entries with
  | [] => none
  | e :: rest => if lexLtB ek e.key then some 0 else (upperIdx rest ek).map (· + 1)

/-- `seek`: position at the target key or the first key lexicographically
following it; invalid if all keys precede the target. -/
def RdictIterSt.seekFwd (st : RdictIterSt) (ek : List Nat) : RdictIterSt :=
  { st with pos := lowerIdx st.entries ek }

/-- `seek_for_prev`: position at the target key or the last key
lexicographically preceding it; invalid if all keys follow the target. -/
def RdictIterSt.seekBwd (st : RdictIterSt) (ek : List Nat) : RdictIterSt :=
  { st with pos :=
      match upperIdx st.entries ek with
      | some 0 => none
      | some (j + 1) => some j
      | none => if st.entries.isEmpty then none else some (st.entries.length - 1) }

def RdictIterSt.next (st : RdictIterSt) : RdictIterSt :=
  { st with pos :=
      match st.pos with
      | some i => if i + 1 < st.entries.length then some (i + 1) else none
      | none => none }

def RdictIterSt.prev (st : RdictIterSt) : RdictIterSt :=
  { st with pos :=
      match st.pos with
      | some i => if i = 0 then none else some (i - 1)
      | none => none }

/-- `RdictIter::key`: the decoded current key while positioned on an
entry, the Python `None` object otherwise. -/
def RdictIterSt.keyRead (st : RdictIterSt) (loads : List Nat → PyObj) : PyRes PyObj :=
  match st.pos with
  | some i =>
    match st.entries.get? i with
    | some e => decode_value e.key loads st.raw
    | none => .ok .pyNone
  | none => .ok .pyNone

/-- `RdictIter::value`: as `key`, for the current value. -/
def RdictIterSt.valRead (st : RdictIterSt) (loads : List Nat → PyObj) : PyRes PyObj :=
  match st.pos with
  | some i =>
    match st.entries.get? i with
    | some e => decode_value e.val loads st.raw
    | none => .ok .pyNone
  | none => .ok .pyNone

/-- The decoding loop of `RdictIter::columns`: each wide column's name and
value are decoded; any failure aborts the whole read. -/
def colsDecode (cs : List (List Nat × List Nat)) (loads : List Nat → PyObj)
    (raw : Bool) : PyRes (List (PyObj × PyObj)) :=
  match cs with
  | [] => .ok []
  | (n, v) :: rest =>
    match decode_value n loads raw with
    | .ok dn =>
      match decode_value v loads raw with
      | .ok dv =>
        match colsDecode rest loads raw with
        | .ok out => .ok ((dn, dv) :: out)
        | .err e => .err e
        | .crash => .crash
      | .err e => .err e
      | .crash => .crash
    | .err e => .err e
    | .crash => .crash

/-- `RdictIter::columns`: the decoded wide-column list while positioned
(`some`), the Python `None` object (`none`) otherwise. -/
def RdictIterSt.colsRead (st : RdictIterSt) (loads : List Nat → PyObj) :
    PyRes (Option (List (PyObj × PyObj))) :=
  match st.pos with
  | some i =>
    match st.entries.get? i with
    | some e =>
      match colsDecode e.cols loads st.raw with
      | .ok xs => .ok (some xs)
      | .err e => .err e
      | .crash => .crash
    | none => .ok none
  | none => .ok none

/-! ## Derived cursors (`impl_iter_single` / `impl_iter`)

`RdictKeys`/`RdictValues`/`RdictColumns` yield one projection of the
current entry, `RdictItems`/`RdictEntities` a tuple of two; all five fix
direction and optional starting key at construction and advance or
retreat by exactly one position after each yield. -/

inductive ProjKind where
  | keys
  | values
  | items
  | columns
  | entities
  deriving DecidableEq

/-- A decoded Python value yielded by a derived cursor. -/
inductive PyVal where
  | obj (o : PyObj)
  | tuple2 (a b : PyVal)
  | colList (cs : List (PyObj × PyObj))
  deriving DecidableEq

def PyRes.map {α β : Type} (f : α → β) : PyRes α → PyRes β
  | .ok a => .ok (f a)
  | .err e => .err e
  | .crash => .crash

/-- The per-entry projection applied at read time by each derived cursor. -/
def projEntry (pk : ProjKind) (e : DbEntry) (loads : List Nat → PyObj)
    (raw : Bool) : PyRes PyVal :=
  match pk with
  | .keys => PyRes.map .obj (decode_value e.key loads raw)
  | .values => PyRes.map .obj (decode_value e.val loads raw)
  | .items =>
    match decode_value e.key loads raw with
    | .ok k =>
      match decode_value e.val loads raw with
      | .ok v => .ok (.tuple2 (.obj k) (.obj v))
      | .err x => .err x
      | .crash => .crash
    | .err x => .err x
    | .crash => .crash
  | .columns => PyRes.map .colList (colsDecode e.cols loads raw)
  | .entities =>
    match decode_value e.key loads raw with
    | .ok k =>
      match colsDecode e.cols loads raw with
      | .ok cs => .ok (.tuple2 (.obj k) (.colList cs))
      | .err x => .err x
      | .crash => .crash
    | .err x => .err x
    | .crash => .crash

/-- The reads performed inside `__next__` (only reached while valid):
`$field(py)?` for each projected field, then the tuple construction. -/
def projRead (pk : ProjKind) (st : RdictIterSt) (loads : List Nat → PyObj) :
    PyRes PyVal :=
  match st.pos with
  | some i =>
    match st.entries.get? i with
    | some e => projEntry pk e loads st.raw
    | none => .ok (.obj .pyNone)
  | none => .ok (.obj .pyNone)

structure DerivedIter where
  inner : RdictIterSt
  backwards : Bool
  deriving DecidableEq

/-- The shared constructor of the five derived cursors: seek to the given
key (direction-dependent), or to the first/last entry. -/
def derivedNew (inner : RdictIterSt) (backwards : Bool) (fromKey : Option PyObj) :
    Except String DerivedIter :=
  match fromKey with
  | some k =>
    match encode_key k inner.raw with
    | .error e => .error e
    | .ok ek =>
      .ok ⟨if backwards then inner.seekBwd ek else inner.seekFwd ek, backwards⟩
  | none =>
    .ok ⟨if backwards then inner.seekToLast else inner.seekToFirst, backwards⟩

/-- `__next__` of a derived cursor: while valid, read the projection of
the current entry and then advance (forward) or retreat (backward) one
position; once invalid, signal end of iteration (`none`). -/
def derivedNext (pk : ProjKind) (it : DerivedIter) (loads : List Nat → PyObj) :
    PyRes (Option PyVal × DerivedIter) :=
  if it.inner.valid then
    match projRead pk it.inner loads with
    | .ok o =>
      .ok (some o, ⟨if it.backwards then it.inner.prev else it.inner.next, it.backwards⟩)
    | .err e => .err e
    | .crash => .crash
  else .ok (none, it)

/-- Repeatedly step a derived cursor, collecting the yielded values until
the end-of-iteration signal (or the fuel runs out). -/
def drain (pk : ProjKind) (loads : List Nat → PyObj) :
    Nat → DerivedIter → PyRes (List PyVal)
  | 0, _ => .ok []
  | fuel + 1, it =>
    match derivedNext pk it loads with
    | .ok (none, _) => .ok []
    | .ok (some o, it') =>
      match drain pk loads fuel it' with
      | .ok rest => .ok (o :: rest)
      | .err e => .err e
      | .crash => .crash
    | .err e => .err e
    | .crash => .crash

/-! ## The store handle (`rdict.rs`)

`Rdict` holds `db : Option<Arc<RefCell<DB>>>` — `None` once closed.  The
engine's per-column-family contents are modelled as an association list
from encoded key to stored bytes, kept in the engine's iteration order;
engine CRUD calls become pure list operations and never fail, while
their error paths survive in the model of the surrounding Rust.  Each
method mirrors the `if let Some(db) = &self.db { ... } else { Err("DB
already closed") }` shape of the source. -/

abbrev DbMap := List (List Nat × List Nat)

def dbGet (db : DbMap) (k : List Nat) : Option (List Nat) :=
  match db with
  | [] => none
  | e :: rest => if e.1 = k then some e.2 else dbGet rest k

def dbDel (db : DbMap) (k : List Nat) : DbMap :=
  match db with
  | [] => []
  | e :: rest => if e.1 = k then dbDel rest k else e :: dbDel rest k

def dbPut (db : DbMap) (k v : List Nat) : DbMap :=
  dbDel db k ++ [(k, v)]

structure Rdict where
  db : Option DbMap
  raw_mode : Bool

/-- Modelled from the spec: `encode_raw` is imported by `rdict.rs` from
`crate::encoder` but the provided `encoder.rs` does not contain it; per
the spec's raw-mode contract it accepts only byte inputs and passes them
through verbatim, any other input is an error. -/
def encode_raw (key : PyObj) : Except String (List Nat) :=
  match tryFromBytes key with
  | some bs => .ok bs
  | none => .error "raw mode only support bytes"

/-- The single-key argument of `__getitem__`, or a `PyList` of keys
(the `PyTryFrom::try_from(key)` dispatch at the top of `__getitem__`). -/
inductive GetItemArg where
  | single (key : PyObj)
  | batch (keys : List PyObj)

/-- A Python value returned by `__getitem__`: a decoded object or a list
of decoded objects (batch). -/
inductive GetItemOut where
  | obj (o : PyObj)
  | list (xs : List PyObj)
  deriving DecidableEq

/-- The key-encoding loop of `get_batch_inner`: every key is encoded
up-front; the first failure aborts the whole call (`encode_key(...)?`). -/
def encodeKeysBatch (keys : List PyObj) (raw_mode : Bool) :
    Except String (List (List Nat)) :=
  match keys with
  | [] => .ok []
  | k :: rest =>
    match (if raw_mode then encode_raw k else encode_key k raw_mode) with
    | .error e => .error e
    | .ok ek =>
      match encodeKeysBatch rest raw_mode with
      | .error e => .error e
      | .ok eks => .ok (ek :: eks)

/-- The result loop of `get_batch_inner`: one slot per engine result, in
order; an absent key appends the Python `None`, a present key appends its
decoded value, and any engine error aborts the whole call with no result
list. -/
def collectValues (values : List (Except String (Option (List Nat))))
    (loads : List Nat → PyObj) (raw_mode : Bool) : PyRes (List PyObj) :=
  match values with
  | [] => .ok []
  | .error e :: _ => .err e
  | .ok none :: rest =>
    match collectValues rest loads raw_mode with
    | .ok out => .ok (.pyNone :: out)
    | .err e => .err e
    | .crash => .crash
  | .ok (some bs) :: rest =>
    match decode_value bs loads raw_mode with
    | .ok v =>
      match collectValues rest loads raw_mode with
      | .ok out => .ok (v :: out)
      | .err e => .err e
      | .crash => .crash
    | .err e => .err e
    | .crash => .crash

/-- `get_batch_inner`: encode all keys, `multi_get` them against the
engine (modelled as one pure lookup per key, in order), then collect the
per-key results. -/
def get_batch_inner (db : DbMap) (keys : List PyObj) (loads : List Nat → PyObj)
    (raw_mode : Bool) : PyRes (List PyObj) :=
  match encodeKeysBatch keys raw_mode with
  | .error e => .err e
  | .ok eks => collectValues (eks.map (fun k => Except.ok (dbGet db k))) loads raw_mode

/-- `Rdict::__getitem__`: closed check, then the batch dispatch, then the
single-key path (`get_pinned_opt`; an absent key is a "key not found"
error for the single accessor). -/
def Rdict.getitem (r : Rdict) (arg : GetItemArg) (loads : List Nat → PyObj) :
    PyRes GetItemOut :=
  match r.db with
  | none => .err "DB already closed"
  | some db =>
    match arg with
    | .batch keys =>
      match get_batch_inner db keys loads r.raw_mode with
      | .ok xs => .ok (.list xs)
      | .err e => .err e
      | .crash => .crash
    | .single key =>
      match (if r.raw_mode then encode_raw key else encode_key key r.raw_mode) with
      | .error e => .err e
      | .ok ek =>
        match dbGet db ek with
        | none => .err "key not found"
        | some bytes =>
          match decode_value bytes loads r.raw_mode with
          | .ok v => .ok (.obj v)
          | .err e => .err e
          | .crash => .crash

/-- `Rdict::__setitem__`: closed check, encode key and value, `put`. -/
def Rdict.setitem (r : Rdict) (key value : PyObj) (dumps : PyObj → List Nat) :
    PyRes Rdict :=
  match r.db with
  | none => .err "DB already closed"
  | some db =>
    match (if r.raw_mode then encode_raw key else encode_key key r.raw_mode) with
    | .error e => .err e
    | .ok ek =>
      match (if r.raw_mode then encode_raw value
             else encode_value value dumps r.raw_mode) with
      | .error e => .err e
      | .ok ev => .ok { r with db := some (dbPut db ek ev) }

/-- `Rdict::__delitem__`: closed check, encode key, `delete`. -/
def Rdict.delitem (r : Rdict) (key : PyObj) : PyRes Rdict :=
  match r.db with
  | none => .err "DB already closed"
  | some db =>
    match (if r.raw_mode then encode_raw key else encode_key key r.raw_mode) with
    | .error e => .err e
    | .ok ek => .ok { r with db := some (dbDel db ek) }

/-- `Rdict::__contains__`: closed check, `key_may_exist` then a
confirming `get` (the may-exist filter collapses in the pure engine
model, leaving presence of the key). -/
def Rdict.contains (r : Rdict) (key : PyObj) : PyRes Bool :=
  match r.db with
  | none => .err "DB already closed"
  | some db =>
    match (if r.raw_mode then encode_raw key else encode_key key r.raw_mode) with
    | .error e => .err e
    | .ok ek => .ok (dbGet db ek).isSome

/-- `Rdict::flush`: closed check, then the engine flush (a pure no-op). -/
def Rdict.flush (r : Rdict) : PyRes Unit :=
  match r.db with
  | none => .err "DB already closed"
  | some _ => .ok ()

/-- `Rdict::flush_wal`: same closed check. -/
def Rdict.flushWal (r : Rdict) : PyRes Unit :=
  match r.db with
  | none => .err "DB already closed"
  | some _ => .ok ()

/-- A mutation of a write batch. -/
inductive BatchOp where
  | put (k v : List Nat)
  | del (k : List Nat)

def applyBatch (db : DbMap) (ops : List BatchOp) : DbMap :=
  ops.foldl (fun acc op =>
    match op with
    | .put k v => dbPut acc k v
    | .del k => dbDel acc k) db

/-- `Rdict::write`: closed check, raw-mode compatibility check, then the
atomic application of the whole batch. -/
def Rdict.write (r : Rdict) (wb : List BatchOp) (wbRaw : Bool) : PyRes Rdict :=
  match r.db with
  | none => .err "DB already closed"
  | some db =>
    if r.raw_mode ≠ wbRaw then
      .err (if r.raw_mode then "must set raw_mode=True for WriteBatch"
            else "must set raw_mode=False for WriteBatch")
    else .ok { r with db := some (applyBatch db wb) }

/-- `Rdict::iter` / `RdictIter::new`: closed check, then a fresh
(unpositioned) native iterator over the column family's entries; a plain
value is reported as one default wide column. -/
def Rdict.iterCreate (r : Rdict) : PyRes RdictIterSt :=
  match r.db with
  | none => .err "DB already closed"
  | some db =>
    .ok { entries := db.map (fun e => ⟨e.1, e.2, [([], e.2)]⟩),
          pos := none, raw := r.raw_mode }

/-- Modelled from the spec: `Snapshot::new` lives in a module that is not
among the provided sources; per the spec every accessor through the
holder checks liveness, so a closed store yields the closed error and a
live one captures a point-in-time read view. -/
def Rdict.snapshotNew (r : Rdict) : PyRes DbMap :=
  match r.db with
  | none => .err "DB already closed"
  | some db => .ok db

/-- `Rdict::get_column_family`: closed check, then `cf_handle` lookup
(its success is a parameter of the model). -/
def Rdict.getColumnFamily (r : Rdict) (cfExists : Bool) : PyRes Rdict :=
  match r.db with
  | none => .err "DB already closed"
  | some _ =>
    if cfExists then .ok r
    else .err "column name does not exist, use create_cf to creat it"

/-- `Rdict::close`: flush, then drop the column family and the db
reference; an already-closed store is an error (unlike the holder's
`close`, this one is not a silent no-op). -/
def Rdict.close (r : Rdict) : PyRes Unit × Rdict :=
  match r.db with
  | none => (.err "DB already closed", r)
  | some _ => (.ok (), { r with db := none })

/-- C4: once a store handle is closed (`db = None`), every operation
through it — single and batch get, set, delete, contains, flush,
write-batch application, iterator creation, snapshot creation,
column-family access, and a second close — returns the "DB already
closed" error as a value (never a crash or a dereference of the freed
resource); `close` always leaves the handle with `db = None`; and at the
holder level, `DbReferenceHolder::get` returns `None` for a closed
holder even while other clones remain live. -/
theorem closed_ops_return_closed_error (r : Rdict) (hclosed : r.db = none) :
    (∀ arg loads, r.getitem arg loads = .err "DB already closed") ∧
      (∀ key value dumps, r.setitem key value dumps = .err "DB already closed") ∧
      (∀ key, r.delitem key = .err "DB already closed") ∧
      (∀ key, r.contains key = .err "DB already closed") ∧
      r.flush = .err "DB already closed" ∧
      r.flushWal = .err "DB already closed" ∧
      (∀ wb wbRaw, r.write wb wbRaw = .err "DB already closed") ∧
      r.iterCreate = .err "DB already closed" ∧
      r.snapshotNew = .err "DB already closed" ∧
      (∀ cfExists, r.getColumnFamily cfExists = .err "DB already closed") ∧
      (r.close.1 = .err "DB already closed" ∧ r.close.2 = r) ∧
      (∀ r' : Rdict, (Rdict.close r').2.db = none) ∧
      (∀ (w : HolderWorld) (i : Nat), holderGet (holderStep w (.close i)) i = false) := by
  refine ⟨?_, ?_, ?_, ?_, ?_, ?_, ?_, ?_, ?_, ?_, ?_, ?_, ?_⟩
  · intro arg loads
    simp [Rdict.getitem, hclosed]
  · intro key value dumps
    simp [Rdict.setitem, hclosed]
  · intro key
    simp [Rdict.delitem, hclosed]
  · intro key
    simp [Rdict.contains, hclosed]
  · simp [Rdict.flush, hclosed]
  · simp [Rdict.flushWal, hclosed]
  · intro wb wbRaw
    simp [Rdict.write, hclosed]
  · simp [Rdict.iterCreate, hclosed]
  · simp [Rdict.snapshotNew, hclosed]
  · intro cfExists
    simp [Rdict.getColumnFamily, hclosed]
  · constructor <;> simp [Rdict.close, hclosed]
  · intro r'
    obtain ⟨db', raw'⟩ := r'
    cases db' <;> simp [Rdict.close]
  · intro w i
    by_cases hi : holderGet w i = true
    · simp only [holderStep, hi, if_true]
      exact getD_set_false w.owners i
    · have hfalse : holderGet w i = false := by
        cases hq : holderGet w i with
        | false => rfl
        | true => exact absurd hq hi
      rw [holderStep_close_noop w i hfalse]
      exact hfalse

/-- C4 witness: a concrete closed handle. -/
theorem closed_ops_return_closed_error_witness :
    (Rdict.mk none false).flush = .err "DB already closed" ∧
      (Rdict.mk none false).getitem (.single (.pyInt 1)) (fun _ => .pyNone) =
        .err "DB already closed" :=
  ⟨(closed_ops_return_closed_error ⟨none, false⟩ rfl).2.2.2.2.1,
    (closed_ops_return_closed_error ⟨none, false⟩ rfl).1
      (.single (.pyInt 1)) (fun _ => .pyNone)⟩

/-- C7: while the cursor is not positioned on an entry (freshly created
and never seeked, exhausted past the range, or errored — all states with
`valid = false`), reading the current key, value or wide-column entity
returns the explicit Python `None`; while positioned valid, each read
returns the decoded current entry. -/
theorem iter_read_invalid_none (st : RdictIterSt) (loads : List Nat → PyObj) :
    (st.valid = false →
      st.keyRead loads = .ok .pyNone ∧ st.valRead loads = .ok .pyNone ∧
        st.colsRead loads = .ok none) ∧
      (st.valid = true →
        ∃ i e, st.pos = some i ∧ st.entries[i]? = some e ∧
          st.keyRead loads = decode_value e.key loads st.raw ∧
          st.valRead loads = decode_value e.val loads st.raw ∧
          st.colsRead loads = PyRes.map some (colsDecode e.cols loads st.raw)) := by
  obtain ⟨entries, pos, raw⟩ := st
  cases pos with
  | none =>
    constructor
    · intro _
      exact ⟨rfl, rfl, rfl⟩
    · intro hv
      exact absurd hv (by simp [RdictIterSt.valid])
  | some i =>
    constructor
    · intro hv
      simp only [RdictIterSt.valid, decide_eq_false_iff_not] at hv
      have hget : entries[i]? = none := List.getElem?_eq_none (by omega)
      refine ⟨?_, ?_, ?_⟩ <;>
        simp [RdictIterSt.keyRead, RdictIterSt.valRead, RdictIterSt.colsRead, hget]
    · intro hv
      simp only [RdictIterSt.valid, decide_eq_true_eq] at hv
      have hget : entries[i]? = some entries[i] := List.getElem?_eq_getElem hv
      refine ⟨i, entries[i], rfl, hget, ?_, ?_, ?_⟩
      · simp [RdictIterSt.keyRead, hget]
      · simp [RdictIterSt.valRead, hget]
      · cases hcd : colsDecode entries[i].cols loads raw <;>
          simp [RdictIterSt.colsRead, hget, hcd, PyRes.map]

/-- C7 witness: a fresh, never-seeked cursor over a one-entry column
family reads `None` everywhere. -/
theorem iter_read_invalid_none_witness :
    RdictIterSt.keyRead ⟨[⟨[1, 97], [1, 98], []⟩], none, false⟩ (fun _ => .pyNone) =
        .ok .pyNone ∧
      RdictIterSt.valRead ⟨[⟨[1, 97], [1, 98], []⟩], none, false⟩ (fun _ => .pyNone) =
        .ok .pyNone ∧
      RdictIterSt.colsRead ⟨[⟨[1, 97], [1, 98], []⟩], none, false⟩ (fun _ => .pyNone) =
        .ok none :=
  (iter_read_invalid_none ⟨[⟨[1, 97], [1, 98], []⟩], none, false⟩ (fun _ => .pyNone)).1 rfl

/-! ## Multi-get (`get_batch_inner`) -/

theorem encodeKeysBatch_length (keys : List PyObj) (raw : Bool)
    (eks : List (List Nat)) (h : encodeKeysBatch keys raw = .ok eks) :
    eks.length = keys.length := by
  induction keys generalizing eks with
  | nil =>
    simp only [encodeKeysBatch, Except.ok.injEq] at h
    subst h
    rfl
  | cons k rest ih =>
    rw [encodeKeysBatch] at h
    cases henc : (if raw then encode_raw k else encode_key k raw) with
    | error e =>
      rw [henc] at h
      exact absurd h (by simp)
    | ok ek =>
      rw [henc] at h
      cases hrec : encodeKeysBatch rest raw with
      | error e =>
        rw [hrec] at h
        exact absurd h (by simp)
      | ok eks' =>
        rw [hrec] at h
        simp only [Except.ok.injEq] at h
        subst h
        simp [ih eks' hrec]

/-- The result list the claim prescribes: one slot per encoded key in
input order, the Python `None` for an absent key, the decoded stored
bytes for a present one. -/
def batchExpected (db : DbMap) (eks : List (List Nat)) (loads : List Nat → PyObj)
    (raw : Bool) : List PyObj :=
  eks.map (fun ek =>
    match dbGet db ek with
    | none => .pyNone
    | some bs =>
      match decode_value bs loads raw with
      | .ok v => v
      | .err _ => .pyNone
      | .crash => .pyNone)

theorem collectValues_map_ok (db : DbMap) (loads : List Nat → PyObj) (raw : Bool)
    (eks : List (List Nat))
    (hdec : ∀ ek ∈ eks, ∀ bs, dbGet db ek = some bs →
      ∃ v, decode_value bs loads raw = .ok v) :
    collectValues (eks.map (fun k => Except.ok (dbGet db k))) loads raw =
      .ok (batchExpected db eks loads raw) := by
  induction eks with
  | nil => rfl
  | cons ek rest ih =>
    have ihr := ih (fun ek' h' bs hbs => hdec ek' (List.mem_cons_of_mem _ h') bs hbs)
    cases hg : dbGet db ek with
    | none =>
      simp [collectValues, batchExpected, hg, ihr]
    | some bs =>
      obtain ⟨v, hv⟩ := hdec ek (List.mem_cons_self _ _) bs hg
      simp [collectValues, batchExpected, hg, hv, ihr]

theorem collectValues_error_mem (loads : List Nat → PyObj) (raw : Bool)
    (values : List (Except String (Option (List Nat)))) (out : List PyObj)
    (h : collectValues values loads raw = .ok out) :
    ∀ e, Except.error e ∉ values := by
  induction values generalizing out with
  | nil => intro e; simp
  | cons v rest ih =>
    intro e hmem
    rcases List.mem_cons.mp hmem with rfl | hmem'
    · rw [collectValues] at h
      exact absurd h (by simp)
    · cases v with
      | error e' =>
        rw [collectValues] at h
        exact absurd h (by simp)
      | ok o =>
        cases o with
        | none =>
          rw [collectValues] at h
          cases hr : collectValues rest loads raw with
          | ok out' => exact ih out' hr e hmem'
          | err e' => rw [hr] at h; exact absurd h (by simp)
          | crash => rw [hr] at h; exact absurd h (by simp)
        | some bs =>
          rw [collectValues] at h
          cases hd : decode_value bs loads raw with
          | ok v' =>
            rw [hd] at h
            cases hr : collectValues rest loads raw with
            | ok out' => exact ih out' hr e hmem'
            | err e' => rw [hr] at h; exact absurd h (by simp)
            | crash => rw [hr] at h; exact absurd h (by simp)
          | err e' => rw [hd] at h; exact absurd h (by simp)
          | crash => rw [hd] at h; exact absurd h (by simp)

/-- C5: multi-get returns one slot per input key, in input order (the
result has exactly the input's length), absent keys map to the Python
`None` and present keys to their decoded value; a key-encoding failure
fails the whole call with that error before the engine is consulted, and
no engine-error slot can ever coexist with a returned result list. -/
theorem get_batch_spec (db : DbMap) (keys : List PyObj) (loads : List Nat → PyObj)
    (raw : Bool) :
    (∀ eks, encodeKeysBatch keys raw = .ok eks →
      (∀ ek ∈ eks, ∀ bs, dbGet db ek = some bs →
        ∃ v, decode_value bs loads raw = .ok v) →
      get_batch_inner db keys loads raw = .ok (batchExpected db eks loads raw) ∧
        (batchExpected db eks loads raw).length = keys.length) ∧
      (∀ e, encodeKeysBatch keys raw = .error e →
        get_batch_inner db keys loads raw = .err e) ∧
      (∀ values out, collectValues values loads raw = .ok out →
        ∀ e, Except.error e ∉ values) := by
  refine ⟨?_, ?_, ?_⟩
  · intro eks henc hdec
    constructor
    · rw [get_batch_inner, henc]
      exact collectValues_map_ok db loads raw eks hdec
    · rw [batchExpected, List.length_map]
      exact encodeKeysBatch_length keys raw eks henc
  · intro e henc
    rw [get_batch_inner, henc]
  · exact collectValues_error_mem loads raw

/-- C5 witness: keys `[present, absent, present]` return
`[decoded₁, None, decoded₂]` in that exact order. -/
theorem get_batch_spec_witness :
    get_batch_inner [([1, 97], [1, 120]), ([1, 98], [1, 121])]
        [.pyBytes [97], .pyBytes [99], .pyBytes [98]] (fun _ => .pyNone) false =
      .ok [.pyBytes [120], .pyNone, .pyBytes [121]] := by
  have h := (get_batch_spec [([1, 97], [1, 120]), ([1, 98], [1, 121])]
      [.pyBytes [97], .pyBytes [99], .pyBytes [98]] (fun _ => .pyNone) false).1
      [[1, 97], [1, 99], [1, 98]] rfl ?_
  · exact h.1
  · intro ek hek bs hbs
    have hke : ek = [1, 97] ∨ ek = [1, 99] ∨ ek = [1, 98] := by
      simpa using hek
    rcases hke with rfl | rfl | rfl
    · rw [show dbGet [([1, 97], [1, 120]), ([1, 98], [1, 121])] [1, 97] =
          some [1, 120] from rfl] at hbs
      injection hbs with hb
      exact ⟨.pyBytes [120], by rw [← hb]; rfl⟩
    · rw [show dbGet [([1, 97], [1, 120]), ([1, 98], [1, 121])] [1, 99] =
          none from rfl] at hbs
      exact Option.noConfusion hbs
    · rw [show dbGet [([1, 97], [1, 120]), ([1, 98], [1, 121])] [1, 98] =
          some [1, 121] from rfl] at hbs
      injection hbs with hb
      exact ⟨.pyBytes [121], by rw [← hb]; rfl⟩

/-! ## Full-traversal behaviour of the derived cursors -/

theorem drain_invalid (pk : ProjKind) (loads : List Nat → PyObj) (fuel : Nat)
    (it : DerivedIter) (h : it.inner.valid = false) :
    drain pk loads fuel it = .ok [] := by
  cases fuel with
  | zero => rfl
  | succ f => simp [drain, derivedNext, h]

theorem projRead_at (pk : ProjKind) (entries : List DbEntry) (i : Nat) (e : DbEntry)
    (raw : Bool) (loads : List Nat → PyObj) (h : entries[i]? = some e) :
    projRead pk ⟨entries, some i, raw⟩ loads = projEntry pk e loads raw := by
  simp [projRead, h]

theorem drain_forward (pk : ProjKind) (loads : List Nat → PyObj)
    (entries : List DbEntry) (raw : Bool) (f : DbEntry → PyVal)
    (hf : ∀ e ∈ entries, projEntry pk e loads raw = .ok (f e)) :
    ∀ fuel i, entries.length - i ≤ fuel →
      drain pk loads fuel
          ⟨⟨entries, if i < entries.length then some i else none, raw⟩, false⟩ =
        .ok ((entries.drop i).map f) := by
  intro fuel
  induction fuel with
  | zero =>
    intro i hi
    rw [if_neg (by omega), List.drop_eq_nil_of_le (by omega)]
    rfl
  | succ fuel ih =>
    intro i hi
    by_cases hlt : i < entries.length
    · rw [if_pos hlt]
      have hvalid : RdictIterSt.valid ⟨entries, some i, raw⟩ = true := by
        simp [RdictIterSt.valid, hlt]
      have hproj : projRead pk ⟨entries, some i, raw⟩ loads = .ok (f entries[i]) := by
        rw [projRead_at pk entries i entries[i] raw loads (List.getElem?_eq_getElem hlt)]
        exact hf entries[i] (List.getElem_mem hlt)
      have hnext : derivedNext pk ⟨⟨entries, some i, raw⟩, false⟩ loads =
          .ok (some (f entries[i]),
            ⟨⟨entries, if i + 1 < entries.length then some (i + 1) else none, raw⟩,
              false⟩) := by
        simp only [derivedNext, hvalid, if_true, hproj]
        rfl
      have hrec := ih (i + 1) (by omega)
      simp only [drain, hnext, hrec]
      rw [List.drop_eq_getElem_cons hlt, List.map_cons]
    · rw [if_neg hlt]
      rw [drain_invalid pk loads (fuel + 1) _ (by simp [RdictIterSt.valid]),
        List.drop_eq_nil_of_le (by omega)]
      rfl

theorem drain_backward (pk : ProjKind) (loads : List Nat → PyObj)
    (entries : List DbEntry) (raw : Bool) (f : DbEntry → PyVal)
    (hf : ∀ e ∈ entries, projEntry pk e loads raw = .ok (f e)) :
    ∀ fuel i, i < entries.length → i + 1 ≤ fuel →
      drain pk loads fuel ⟨⟨entries, some i, raw⟩, true⟩ =
        .ok (((entries.take (i + 1)).map f).reverse) := by
  intro fuel
  induction fuel with
  | zero =>
    intro i _ hfuel
    omega
  | succ fuel ih =>
    intro i hlt hfuel
    have hvalid : RdictIterSt.valid ⟨entries, some i, raw⟩ = true := by
      simp [RdictIterSt.valid, hlt]
    have hproj : projRead pk ⟨entries, some i, raw⟩ loads = .ok (f entries[i]) := by
      rw [projRead_at pk entries i entries[i] raw loads (List.getElem?_eq_getElem hlt)]
      exact hf entries[i] (List.getElem_mem hlt)
    have htake : entries.take (i + 1) = entries.take i ++ [entries[i]] := by
      rw [List.take_succ, List.getElem?_eq_getElem hlt]
      rfl
    cases i with
    | zero =>
      have hnext : derivedNext pk ⟨⟨entries, some 0, raw⟩, true⟩ loads =
          .ok (some (f entries[0]), ⟨⟨entries, none, raw⟩, true⟩) := by
        simp only [derivedNext, hvalid, if_true, hproj]
        rfl
      have hdone : drain pk loads fuel ⟨⟨entries, none, raw⟩, true⟩ = .ok [] :=
        drain_invalid pk loads fuel _ (by simp [RdictIterSt.valid])
      simp only [drain, hnext, hdone]
      rw [htake]
      simp
    | succ j =>
      have hnext : derivedNext pk ⟨⟨entries, some (j + 1), raw⟩, true⟩ loads =
          .ok (some (f entries[j + 1]), ⟨⟨entries, some j, raw⟩, true⟩) := by
        simp only [derivedNext, hvalid, if_true, hproj]
        rfl
      have hrec := ih j (by omega) (by omega)
      simp only [drain, hnext, hrec]
      rw [htake, List.map_append, List.reverse_append]
      simp

theorem lowerIdx_lt_length (entries : List DbEntry) (ek : List Nat) (j : Nat)
    (h : lowerIdx entries ek = some j) : j < entries.length := by
  induction entries generalizing j with
  | nil => exact absurd h (by simp [lowerIdx])
  | cons e rest ih =>
    rw [lowerIdx] at h
    by_cases hc : (!lexLtB e.key ek) = true
    · rw [if_pos hc] at h
      injection h with h
      subst h
      simp
    · rw [if_neg hc] at h
      cases hl : lowerIdx rest ek with
      | none => rw [hl] at h; exact absurd h (by simp)
      | some j' =>
        rw [hl] at h
        simp at h
        have h2 := ih j' hl
        simp only [List.length_cons]
        omega

theorem upperIdx_lt_length (entries : List DbEntry) (ek : List Nat) (j : Nat)
    (h : upperIdx entries ek = some j) : j < entries.length := by
  induction entries generalizing j with
  | nil => exact absurd h (by simp [upperIdx])
  | cons e rest ih =>
    rw [upperIdx] at h
    by_cases hc : lexLtB ek e.key = true
    · rw [if_pos hc] at h
      injection h with h
      subst h
      simp
    · rw [if_neg hc] at h
      cases hl : upperIdx rest ek with
      | none => rw [hl] at h; exact absurd h (by simp)
      | some j' =>
        rw [hl] at h
        simp at h
        have h2 := ih j' hl
        simp only [List.length_cons]
        omega

/-- The segment of entries a forward cursor seeked to `ek` traverses. -/
def seekFwdDrop (entries : List DbEntry) (ek : List Nat) : List DbEntry :=
  match lowerIdx entries ek with
  | some j => entries.drop j
  | none => []

/-- The segment of entries a backward cursor seeked to `ek` traverses
(before reversal). -/
def seekBwdTake (entries : List DbEntry) (ek : List Nat) : List DbEntry :=
  match upperIdx entries ek with
  | some 0 => []
  | some (j + 1) => entries.take (j + 1)
  | none => entries

/-- C8: every derived cursor fixes direction and optional starting key at
construction — seeking to the given key or its nearest following
(forward) / preceding (backward) key, else to the first / last entry —
and on each step yields the projection of the current entry, then
advances or retreats exactly one position; draining a freshly built
cursor therefore yields exactly the projections of the reachable segment
in iteration order, and a cursor whose inner state is invalid signals
end of iteration. -/
theorem derived_iter_spec (pk : ProjKind) (loads : List Nat → PyObj)
    (entries : List DbEntry) (raw : Bool) (f : DbEntry → PyVal)
    (hf : ∀ e ∈ entries, projEntry pk e loads raw = .ok (f e))
    (fuel : Nat) (hfuel : entries.length ≤ fuel) :
    (∀ it, derivedNew ⟨entries, none, raw⟩ false none = .ok it →
      drain pk loads fuel it = .ok (entries.map f)) ∧
      (∀ it, derivedNew ⟨entries, none, raw⟩ true none = .ok it →
        drain pk loads fuel it = .ok ((entries.map f).reverse)) ∧
      (∀ k ek it, encode_key k raw = .ok ek →
        derivedNew ⟨entries, none, raw⟩ false (some k) = .ok it →
        drain pk loads fuel it = .ok ((seekFwdDrop entries ek).map f)) ∧
      (∀ k ek it, encode_key k raw = .ok ek →
        derivedNew ⟨entries, none, raw⟩ true (some k) = .ok it →
        drain pk loads fuel it = .ok (((seekBwdTake entries ek).map f).reverse)) ∧
      (∀ it : DerivedIter, it.inner.valid = false →
        derivedNext pk it loads = .ok (none, it)) := by
  refine ⟨?_, ?_, ?_, ?_, ?_⟩
  · intro it hit
    simp only [derivedNew, if_false, Except.ok.injEq, Bool.false_eq_true] at hit
    subst hit
    by_cases he : entries.isEmpty = true
    · have hnil : entries = [] := List.isEmpty_iff.mp he
      subst hnil
      exact drain_invalid pk loads fuel _ (by simp [RdictIterSt.valid, RdictIterSt.seekToFirst])
    · have hne : entries ≠ [] := by simpa [List.isEmpty_iff] using he
      have hlen : 0 < entries.length := List.length_pos.mpr hne
      have hst : RdictIterSt.seekToFirst ⟨entries, none, raw⟩ = ⟨entries, some 0, raw⟩ := by
        simp [RdictIterSt.seekToFirst, he]
      rw [hst]
      have hd := drain_forward pk loads entries raw f hf fuel 0 (by omega)
      rw [if_pos hlen] at hd
      simpa using hd
  · intro it hit
    simp only [derivedNew, if_true, Except.ok.injEq] at hit
    subst hit
    by_cases he : entries.isEmpty = true
    · have hnil : entries = [] := List.isEmpty_iff.mp he
      subst hnil
      exact drain_invalid pk loads fuel _ (by simp [RdictIterSt.valid, RdictIterSt.seekToLast])
    · have hne : entries ≠ [] := by simpa [List.isEmpty_iff] using he
      have hlen : 0 < entries.length := List.length_pos.mpr hne
      have hst : RdictIterSt.seekToLast ⟨entries, none, raw⟩ =
          ⟨entries, some (entries.length - 1), raw⟩ := by
        simp [RdictIterSt.seekToLast, he]
      rw [hst]
      have hd := drain_backward pk loads entries raw f hf fuel (entries.length - 1)
        (by omega) (by omega)
      rw [show entries.length - 1 + 1 = entries.length by omega, List.take_length] at hd
      exact hd
  · intro k ek it hk hit
    simp only [derivedNew, hk, if_false, Except.ok.injEq, Bool.false_eq_true] at hit
    subst hit
    have hst : RdictIterSt.seekFwd ⟨entries, none, raw⟩ ek =
        ⟨entries, lowerIdx entries ek, raw⟩ := rfl
    rw [hst]
    cases hlo : lowerIdx entries ek with
    | none =>
      rw [drain_invalid pk loads fuel _ (by simp [RdictIterSt.valid])]
      simp [seekFwdDrop, hlo]
    | some j =>
      have hj := lowerIdx_lt_length entries ek j hlo
      have hd := drain_forward pk loads entries raw f hf fuel j (by omega)
      rw [if_pos hj] at hd
      rw [hd]
      simp [seekFwdDrop, hlo]
  · intro k ek it hk hit
    simp only [derivedNew, hk, if_true, Except.ok.injEq] at hit
    subst hit
    have hst : RdictIterSt.seekBwd ⟨entries, none, raw⟩ ek =
        ⟨entries,
          match upperIdx entries ek with
          | some 0 => none
          | some (j + 1) => some j
          | none => if entries.isEmpty then none else some (entries.length - 1),
          raw⟩ := rfl
    rw [hst]
    cases hup : upperIdx entries ek with
    | some j =>
      cases j with
      | zero =>
        rw [drain_invalid pk loads fuel _ (by simp [RdictIterSt.valid])]
        simp [seekBwdTake, hup]
      | succ j' =>
        have hj := upperIdx_lt_length entries ek (j' + 1) hup
        have hd := drain_backward pk loads entries raw f hf fuel j' (by omega) (by omega)
        rw [hd]
        simp [seekBwdTake, hup]
    | none =>
      by_cases he : entries.isEmpty = true
      · have hnil : entries = [] := List.isEmpty_iff.mp he
        subst hnil
        rw [drain_invalid pk loads fuel _ (by simp [RdictIterSt.valid])]
        simp [seekBwdTake, hup]
      · have hne : entries ≠ [] := by simpa [List.isEmpty_iff] using he
        have hlen : 0 < entries.length := List.length_pos.mpr hne
        have hd := drain_backward pk loads entries raw f hf fuel (entries.length - 1)
          (by omega) (by omega)
        rw [show entries.length - 1 + 1 = entries.length by omega, List.take_length] at hd
        have he2 : entries.isEmpty = false := by
          cases hq : entries.isEmpty with
          | false => rfl
          | true => exact absurd hq he
        have hpos : (if entries.isEmpty = true then none
            else some (entries.length - 1) : Option Nat) = some (entries.length - 1) := by
          simp [he2]
        rw [hpos, hd]
        simp [seekBwdTake, hup]
  · intro it h
    simp [derivedNext, h]

/-- C8 witness: a forward keys-cursor over a two-entry raw-mode column
family yields both keys in order. -/
theorem derived_iter_spec_witness :
    drain .keys (fun _ => .pyNone) 2
        ⟨⟨[⟨[97], [120], []⟩, ⟨[98], [121], []⟩], some 0, true⟩, false⟩ =
      .ok [.obj (.pyBytes [97]), .obj (.pyBytes [98])] := by
  have h := (derived_iter_spec .keys (fun _ => .pyNone)
      [⟨[97], [120], []⟩, ⟨[98], [121], []⟩] true
      (fun e => .obj (.pyBytes e.key))
      (by
        intro e he
        have he2 : e = ⟨[97], [120], []⟩ ∨ e = ⟨[98], [121], []⟩ := by
          simpa using he
        rcases he2 with rfl | rfl <;> rfl)
      2 (by decide)).1
      ⟨⟨[⟨[97], [120], []⟩, ⟨[98], [121], []⟩], some 0, true⟩, false⟩ rfl
  exact h
